import Mathlib

/-!
Shallow embedding of `main.go` of the kinopoisk-export repository.

Strings are modelled as Lean `String` / `List Char` (Go operates on UTF-8
bytes, but every separator used by the program — `"/"`, `"—"`, `" из "` —
is a sequence of whole Unicode scalar values, and UTF-8 is self-synchronizing,
so byte-level splitting coincides with rune-level splitting).
Go `int` is 64-bit; arithmetic that can overflow is reduced with `wrap64`.
A Go runtime panic (index out of range, nil dereference) is modelled as
`Option.none`.
-/

/-- Model of Go `strings.Split` (non-empty separator), processing the input
left to right; `skip > 0` means we are still consuming characters of a
matched separator; `acc` is the current field accumulated in reverse. -/
def splitAux (sep : List Char) : List Char → Nat → List Char → List (List Char)
  | [], _, acc => [acc.reverse]
  | _ :: rest, skip + 1, acc => splitAux sep rest skip acc
  | ch :: rest, 0, acc =>
    if sep ≠ [] ∧ sep.isPrefixOf (ch :: rest) then
      acc.reverse :: splitAux sep rest (sep.length - 1) []
    else
      splitAux sep rest 0 (ch :: acc)

/-- Model of Go `strings.Split s sep` for a non-empty `sep`. -/
def goSplit (sep s : List Char) : List (List Char) :=
  splitAux sep s 0 []

/-- Model of Go `strings.Contains hay needle`. -/
def containsSeq (needle : List Char) : List Char → Bool
  | [] => needle.isEmpty
  | c :: rest => needle.isPrefixOf (c :: rest) || containsSeq needle rest

/-- Accumulate decimal digits; `none` as soon as a non-digit appears
(models the digit loop of Go `strconv.Atoi`). -/
def digitsToNat : List Char → Nat → Option Nat
  | [], acc => some acc
  | c :: rest, acc =>
    if c.isDigit then digitsToNat rest (acc * 10 + (c.toNat - 48)) else none

/-- Largest Go `int` (64-bit) value. -/
def maxInt64 : Nat := 2 ^ 63 - 1

/-- Model of Go `strconv.Atoi`: optional sign, at least one decimal digit,
nothing else; out-of-range values give an error (`none`), matching
`strconv.ErrRange` which the program treats like any other error. -/
def atoiChars (l : List Char) : Option Int :=
  match l with
  | [] => none
  | '+' :: rest =>
    (digitsToNat rest 0).bind
      (fun n => if rest.isEmpty then none else
        if n ≤ maxInt64 then some ((n : Int)) else none)
  | '-' :: rest =>
    (digitsToNat rest 0).bind
      (fun n => if rest.isEmpty then none else
        if n ≤ 2 ^ 63 then some (-(n : Int)) else none)
  | _ =>
    (digitsToNat l 0).bind
      (fun n => if n ≤ maxInt64 then some ((n : Int)) else none)

/-- Reduce an integer into the 64-bit two's-complement range, modelling Go's
wrap-around arithmetic on `int`. -/
def wrap64 (x : Int) : Int :=
  (x + 2 ^ 63) % 2 ^ 64 - 2 ^ 63

/-- The separator `" из "` of the pagination marker. -/
def izSep : List Char := (" из ").data

/-- The separator `"—"` (em dash) of the pagination range. -/
def dashSep : List Char := ("—").data

/-- Lines 217–240 of `main.go` (`findPagingHeader`), the part operating on
the marker text `pages`: split on `" из "`, split the range part on `"—"`,
parse the three numbers.  `none` models a Go index-out-of-range panic
(`pageRangeParts[1]` / `pagesParts[1]`); `some (0, 0)` is the value returned
on a `strconv.Atoi` error. -/
def inspectPagingText (pages : String) : Option (Int × Int) :=
  match goSplit izSep pages.data with
  | [] => none
  | p0 :: pRest =>
    match goSplit dashSep p0 with
    | [] => none
    | r0 :: rRest =>
      match atoiChars r0 with
      | none => some (0, 0)
      | some firstItemNumber =>
        match rRest with
        | [] => none
        | r1 :: _ =>
          match atoiChars r1 with
          | none => some (0, 0)
          | some lastItemNumber =>
            let pageSize := wrap64 (lastItemNumber - firstItemNumber + 1)
            match pRest with
            | [] => none
            | t0 :: _ =>
              match atoiChars t0 with
              | none => some (0, 0)
              | some totalMovies => some (totalMovies, pageSize)

/-- Lines 345–348 of `main.go`: `extractId` splits the href on `"/"` and
indexes element 2; `none` models the index-out-of-range panic when the
split yields fewer than three parts. -/
def extractId (href : String) : Option String :=
  match goSplit (['/']) href.data with
  | _ :: _ :: x :: _ => some (String.mk x)
  | _ => none

/-- Lines 162–166 of `main.go` (`export`): page count from total and page
size.  Go `/` and `%` on `int` truncate toward zero (`tdiv` / `tmod`);
division by zero panics (`none`); results wrap at 64 bits. -/
def computePageCount (totalMovies pageSize : Int) : Option Int :=
  if pageSize = 0 then none
  else
    let q := wrap64 (totalMovies.tdiv pageSize)
    some (if totalMovies.tmod pageSize ≠ 0 then wrap64 (q + 1) else q)

/-- Node kinds of `golang.org/x/net/html`. -/
inductive NodeType where
  | error | text | document | element | comment | doctype | raw
  deriving DecidableEq

/-- One attribute of an HTML element (`html.Attribute`; the `Namespace`
field is never consulted by the program and is omitted). -/
structure HtmlAttr where
  key : String
  val : String
  deriving DecidableEq

/-- A node of the parsed HTML tree (`html.Node`): kind, `Data` (tag name or
text), attributes, and children (the `FirstChild` / `NextSibling` chain). -/
inductive HtmlNode where
  | mk (type : NodeType) (data : String) (attrs : List HtmlAttr)
      (children : List HtmlNode)

def HtmlNode.type : HtmlNode → NodeType
  | .mk t _ _ _ => t

def HtmlNode.data : HtmlNode → String
  | .mk _ d _ _ => d

def HtmlNode.attrs : HtmlNode → List HtmlAttr
  | .mk _ _ a _ => a

def HtmlNode.children : HtmlNode → List HtmlNode
  | .mk _ _ _ c => c

/-- Lines 313–321 of `main.go` (`isClassName`): some attribute has key
`"class"` whose value CONTAINS `className` as a substring
(`strings.Contains`, not an exact token match). -/
def isClassName (n : HtmlNode) (className : String) : Bool :=
  n.attrs.any (fun a => a.key == "class" && containsSeq className.data a.val.data)

mutual

/-- Lines 214–250 of `main.go` (`findPagingHeader`): pre-order DFS for a
`div` whose class contains `"pagesFromTo"`; at the first such node the
marker text of its first child is inspected (`none` models the nil
dereference panic of `n.FirstChild.Data` when the node has no child). -/
def findPagingHeaderGo (n : HtmlNode) : Option (Int × Int) :=
  match n with
  | .mk t d _ children =>
    if t = NodeType.element ∧ d = "div" ∧ isClassName n "pagesFromTo" then
      match children with
      | [] => none
      | c :: _ => inspectPagingText c.data
    else
      findPagingHeaderList children

/-- The sibling loop of `findPagingHeader` (lines 243–248): a child result
with non-zero `totalMovies` is returned, otherwise the scan continues;
exhaustion yields `(0, 0)`. -/
def findPagingHeaderList (l : List HtmlNode) : Option (Int × Int) :=
  match l with
  | [] => some (0, 0)
  | c :: rest =>
    match findPagingHeaderGo c with
    | none => none
    | some (totalMovies, pageSize) =>
      if totalMovies ≠ 0 then some (totalMovies, pageSize)
      else findPagingHeaderList rest

end

/-- The global `movies map[string]string`, modelled as an association list
with unique keys (insertion order retained; Go map iteration order is
unspecified, which only matters for serialization, see `serializeStore`). -/
abbrev Movies := List (String × String)

/-- Model of the Go map assignment `m[k] = v`: overwrite in place if the key
is present, append otherwise. -/
def mapInsert (m : Movies) (k v : String) : Movies :=
  if m.any (fun p => p.1 == k) then
    m.map (fun p => if p.1 == k then (k, v) else p)
  else
    m ++ [(k, v)]

/-- Model of the Go map read `m[k]`. -/
def mapGet (m : Movies) (k : String) : Option String :=
  (m.find? (fun p => p.1 == k)).map (fun p => p.2)

/-- RecordStore merge (spec §4.5): insert every `(id, name)` record in order,
as `processMovie` does one record at a time across pages. -/
def mergeMovies (m : Movies) (records : List (String × String)) : Movies :=
  records.foldl (fun acc r => mapInsert acc r.1 r.2) m

/-- The first `href` attribute of an anchor (the attribute loop of lines
330–335 of `main.go`). -/
def findHref (attrs : List HtmlAttr) : Option String :=
  (attrs.find? (fun a => a.key == "href")).map (fun a => a.val)

/-- The anchor loop of `processMovie` (lines 328–337): find the first `a`
element child carrying an `href`; insert `movies[extractId(href)] =
e.FirstChild.Data` and report success.  `none` models a panic: a malformed
href inside `extractId`, or `e.FirstChild` being nil. -/
def processMovieAnchors (m : Movies) : List HtmlNode → Option (Movies × Bool)
  | [] => some (m, false)
  | e :: es =>
    if e.type = NodeType.element ∧ e.data = "a" then
      match findHref e.attrs with
      | some href =>
        match extractId href with
        | none => none
        | some movieId =>
          match e.children with
          | [] => none
          | firstChild :: _ => some (mapInsert m movieId firstChild.data, true)
      | none => processMovieAnchors m es
    else
      processMovieAnchors m es

/-- The `nameRus` loop of `processMovie` (lines 326–339). -/
def processMovieName (m : Movies) : List HtmlNode → Option (Movies × Bool)
  | [] => some (m, false)
  | d :: ds =>
    if isClassName d "nameRus" then
      match processMovieAnchors m d.children with
      | none => none
      | some (m2, true) => some (m2, true)
      | some (_, false) => processMovieName m ds
    else
      processMovieName m ds

/-- The `info` loop of `processMovie` (lines 324–341). -/
def processMovieInfo (m : Movies) : List HtmlNode → Option (Movies × Bool)
  | [] => some (m, false)
  | c :: cs =>
    if isClassName c "info" then
      match processMovieName m c.children with
      | none => none
      | some (m2, true) => some (m2, true)
      | some (_, false) => processMovieInfo m cs
    else
      processMovieInfo m cs

/-- Lines 323–343 of `main.go` (`processMovie`): descend
entry → info → nameRus → anchor, insert the record, return whether one
record was extracted. -/
def processMovie (m : Movies) (n : HtmlNode) : Option (Movies × Bool) :=
  processMovieInfo m n.children

/-- Lines 300–311 of `main.go` (`processMovies`): iterate the container's
children; a child whose class contains `"item"` (or `"item even"` — a
redundant second test, kept as in the source) is processed and counted when
extraction succeeded. -/
def processMoviesGo (m : Movies) : List HtmlNode → Option (Nat × Movies)
  | [] => some (0, m)
  | c :: cs =>
    if isClassName c "item" || isClassName c "item even" then
      match processMovie m c with
      | none => none
      | some (m2, ok) =>
        match processMoviesGo m2 cs with
        | none => none
        | some (parsedMovies, m3) =>
          some ((if ok then parsedMovies + 1 else parsedMovies), m3)
    else
      processMoviesGo m cs

mutual

/-- Lines 284–298 of `main.go` (`findMovies`): pre-order DFS for a `div`
whose class contains `"profileFilmsList"`; at the first such node the item
children are processed.  The movies map is threaded through explicitly
(it is a package-level variable in the source). -/
def findMoviesGo (m : Movies) (n : HtmlNode) : Option (Nat × Movies) :=
  match n with
  | .mk t d _ children =>
    if t = NodeType.element ∧ d = "div" ∧ isClassName n "profileFilmsList" then
      processMoviesGo m children
    else
      findMoviesList m children

/-- The sibling loop of `findMovies` (lines 291–296). -/
def findMoviesList (m : Movies) (l : List HtmlNode) : Option (Nat × Movies)
  :=
  match l with
  | [] => some (0, m)
  | c :: rest =>
    match findMoviesGo m c with
    | none => none
    | some (parsedMovies, m2) =>
      if parsedMovies ≠ 0 then some (parsedMovies, m2)
      else findMoviesList m2 rest

end

/-- Outcome of one attempt of a page-fetch loop: the HTTP request failed
(`fetchError`), `html.Parse` failed (`parseError`), or a document was
obtained. -/
inductive Attempt where
  | fetchError
  | parseError
  | doc (d : HtmlNode)

/-- Result of running a retry loop against a finite trace of attempt
outcomes: a value returned to the caller after `sleeps` fixed delays, a
runtime panic, or `pending` when the trace is exhausted with the loop still
running (the unbounded loop would keep retrying). -/
inductive LoopResult (α : Type) where
  | ok (value : α) (sleeps : Nat)
  | panicked
  | pending
  deriving DecidableEq

/-- Add one fixed delay to a normally-returning loop result. -/
def addSleep {α : Type} : LoopResult α → LoopResult α
  | .ok v s => .ok v (s + 1)
  | r => r

/-- Lines 189–212 of `main.go` (`parseFirstPage`) over a trace of attempt
outcomes: a fetch or parse error RETURNS `(0, 0)` to the caller at once; a
parsed page is inspected and the loop continues while `totalMovies == 0`.
The loop body contains no `time.Sleep`, so a normal return always reports
zero delays. -/
def parseFirstPageGo : List Attempt → LoopResult (Int × Int)
  | [] => .pending
  | .fetchError :: _ => .ok (0, 0) 0
  | .parseError :: _ => .ok (0, 0) 0
  | .doc d :: rest =>
    match findPagingHeaderGo d with
    | none => .panicked
    | some (totalMovies, pageSize) =>
      if totalMovies ≠ 0 then .ok (totalMovies, pageSize) 0
      else parseFirstPageGo rest

/-- Lines 252–282 of `main.go` (`parsePage`) over a trace of attempt
outcomes, threading the movies map: a fetch or parse error RETURNS `0`
before any sleep; otherwise the page is processed and `time.Sleep` runs
after EVERY parsed attempt — including the final successful one — before
the `foundMovies == 0` loop condition is re-checked. -/
def parsePageGo (m : Movies) : List Attempt → LoopResult (Nat × Movies)
  | [] => .pending
  | .fetchError :: _ => .ok (0, m) 0
  | .parseError :: _ => .ok (0, m) 0
  | .doc d :: rest =>
    match findMoviesGo m d with
    | none => .panicked
    | some (foundMovies, m2) =>
      if foundMovies ≠ 0 then .ok (foundMovies, m2) 1
      else addSleep (parsePageGo m2 rest)

/-- Lines 82–103 of `main.go` (`importMovies`), the per-record replay loop.
`watch` is the oracle of results of successive `setMovieWatched` calls,
indexed by call number `k` — the index advances exactly once per processed
record, so each record triggers exactly one mutation call.  Returns the
list of per-record `(movieName, ok)` reports and whether the run aborted
early (`strconv.Atoi` failure → print and `return`).  `none` models the
index panic on a row with fewer than two fields. -/
def importLoop (watch : Nat → Bool) :
    List (List String) → Nat → Option (List (String × Bool) × Bool)
  | [], _ => some ([], false)
  | row :: rest, k =>
    match row with
    | movieId :: movieName :: _ =>
      match atoiChars movieId.data with
      | none => some ([], true)
      | some _ =>
        match importLoop watch rest (k + 1) with
        | none => none
        | some (reports, aborted) =>
          some ((movieName, watch k) :: reports, aborted)
    | _ => none

/-- The reports produced by a replay run over well-formed rows: one entry
per row, consuming one mutation-call result each. -/
def reportsOf (watch : Nat → Bool) : Nat → List (List String) → List (String × Bool)
  | _, [] => []
  | k, row :: rest => (row.getD 1 "", watch k) :: reportsOf watch (k + 1) rest

/-- A plain text node: no `pagesFromTo` marker and no `profileFilmsList`
container, so both page inspections yield a zero result on it. -/
def emptyNode : HtmlNode :=
  HtmlNode.mk NodeType.text "transient" [] []

/-- A pagination marker node carrying the spec's example text. -/
def markerNode : HtmlNode :=
  HtmlNode.mk NodeType.element "div" [⟨"class", "pagesFromTo"⟩]
    [HtmlNode.mk NodeType.text "1—50 из 237" [] []]

/-- A listing container holding one well-formed movie entry. -/
def listPageNode : HtmlNode :=
  HtmlNode.mk NodeType.element "div" [⟨"class", "profileFilmsList"⟩]
    [HtmlNode.mk NodeType.element "div" [⟨"class", "item"⟩]
      [HtmlNode.mk NodeType.element "div" [⟨"class", "info"⟩]
        [HtmlNode.mk NodeType.element "div" [⟨"class", "nameRus"⟩]
          [HtmlNode.mk NodeType.element "a" [⟨"href", "/film/535341/"⟩]
            [HtmlNode.mk NodeType.text "Matrix" [] []]]]]]

/-- The double-quote character, written via its code point so that no
quote appears inside a character literal. -/
def quoteChar : Char := Char.ofNat 34

/-- Modelled from the spec: the TabularCodec collaborator (§6) realized by
Go's `encoding/csv` with `Comma = ';'` is not part of this repository's
source; a field needs quoting when it contains the delimiter, a quote, or a
line break. -/
def isSpecial (c : Char) : Bool :=
  c == ';' || c == quoteChar || c == '\n' || c == '\r'

/-- Modelled from the spec: whether a serialized field must be quoted. -/
def needsQuote (f : List Char) : Bool :=
  f.any isSpecial

/-- Modelled from the spec: double every quote inside a quoted field. -/
def dupQ : List Char → List Char
  | [] => []
  | c :: rest =>
    if c = quoteChar then quoteChar :: quoteChar :: dupQ rest
    else c :: dupQ rest

/-- Modelled from the spec: render one field of the semicolon-delimited
record format. -/
def escField (f : List Char) : List Char :=
  if needsQuote f then quoteChar :: (dupQ f ++ [quoteChar]) else f

/-- Lines 371–386 of `main.go` (`dumpFile`) composed with the TabularCodec
collaborator: one `id;name` row per record, each terminated by a newline.
The unspecified Go map iteration order is modelled as the store's list
order. -/
def serializeStore (m : Movies) : List Char :=
  (m.map (fun r => escField r.1.data ++ ';' :: (escField r.2.data ++ ['\n']))).flatten

/-- Modelled from the spec: read the body of a quoted field, the opening
quote already consumed; a doubled quote stands for a literal quote, a
single quote closes the field.  `none` on an unterminated field. -/
def parseQuoted : List Char → Option (List Char × List Char)
  | [] => none
  | c :: rest =>
    if c = quoteChar then
      match rest with
      | [] => some ([], [])
      | c2 :: rest2 =>
        if c2 = quoteChar then
          (parseQuoted rest2).map (fun p => (quoteChar :: p.1, p.2))
        else some ([], rest)
    else (parseQuoted rest).map (fun p => (c :: p.1, p.2))

/-- Characters that may appear in an unquoted field being read. -/
def notDelim (c : Char) : Bool :=
  !(c == ';' || c == '\n')

/-- Modelled from the spec: read one field; a field starting with a quote
is read as a quoted field, otherwise everything up to the next delimiter
or line break is the field. -/
def parseField (s : List Char) : Option (List Char × List Char) :=
  match s with
  | [] => some ([], [])
  | c :: rest =>
    if c = quoteChar then parseQuoted rest
    else some (s.takeWhile notDelim, s.dropWhile notDelim)

theorem parseQuoted_length :
    ∀ s f rest, parseQuoted s = some (f, rest) → rest.length ≤ s.length := by
  intro s
  induction s using parseQuoted.induct with
  | case1 => intro f rest h; simp [parseQuoted] at h
  | case2 =>
    intro f rest h
    have he : parseQuoted ([quoteChar]) = some ([], []) := by simp [parseQuoted]
    rw [he] at h
    injection h with h2
    injection h2 with hf hr
    subst hr
    simp
  | case3 rest2 ih =>
    intro f rest h
    have he : parseQuoted (quoteChar :: quoteChar :: rest2) =
        (parseQuoted rest2).map (fun p => (quoteChar :: p.1, p.2)) := by
      simp [parseQuoted]
    rw [he] at h
    cases hq : parseQuoted rest2 with
    | none => rw [hq] at h; cases h
    | some p =>
      rw [hq] at h
      injection h with h2
      injection h2 with hf hr
      subst hr
      have := ih p.1 p.2 (by rw [hq])
      simp
      omega
  | case4 c2 rest2 hc =>
    intro f rest h
    have he : parseQuoted (quoteChar :: c2 :: rest2) = some ([], c2 :: rest2) := by
      simp [parseQuoted, hc]
    rw [he] at h
    injection h with h2
    injection h2 with hf hr
    subst hr
    simp
  | case5 c2 rest2 hc ih =>
    intro f rest h
    have he : parseQuoted (c2 :: rest2) =
        (parseQuoted rest2).map (fun p => (c2 :: p.1, p.2)) := by
      rw [parseQuoted.eq_def]
      simp [hc]
    rw [he] at h
    cases hq : parseQuoted rest2 with
    | none => rw [hq] at h; cases h
    | some p =>
      rw [hq] at h
      injection h with h2
      injection h2 with hf hr
      subst hr
      have := ih p.1 p.2 (by rw [hq])
      simp
      omega

theorem dropWhile_length_le (p : Char → Bool) (l : List Char) :
    (l.dropWhile p).length ≤ l.length := by
  induction l with
  | nil => simp
  | cons a l ih =>
    by_cases h : p a
    · simp [List.dropWhile, h]; omega
    · simp [List.dropWhile, h]

theorem parseField_length :
    ∀ s f rest, parseField s = some (f, rest) → rest.length ≤ s.length := by
  intro s f rest h
  match s with
  | [] =>
    have he : parseField [] = some ([], []) := by simp [parseField]
    rw [he] at h
    injection h with h2
    injection h2 with hf hr
    subst hr
    simp
  | c :: s' =>
    by_cases hq : c = quoteChar
    · have he : parseField (c :: s') = parseQuoted s' := by simp [parseField, hq]
      rw [he] at h
      have := parseQuoted_length s' f rest h
      simp
      omega
    · have he : parseField (c :: s') =
          some ((c :: s').takeWhile notDelim, (c :: s').dropWhile notDelim) := by
        simp [parseField, hq]
      rw [he] at h
      injection h with h2
      injection h2 with hf hr
      subst hr
      exact dropWhile_length_le notDelim (c :: s')

def parseRecord (s : List Char) : Option (List (List Char) × List Char) :=
  match hf : parseField s with
  | none => none
  | some (f, rest) =>
    match rest with
    | [] => some ([f], [])
    | c :: r =>
      if c = ';' then (parseRecord r).map (fun p => (f :: p.1, p.2))
      else if c = '\n' then some ([f], r) else none
termination_by s.length
decreasing_by
  have := parseField_length s f (c :: r) hf
  simp at this
  omega

theorem parseRecord_semi (s f r : List Char) (h : parseField s = some (f, ';' :: r)) :
    parseRecord s = (parseRecord r).map (fun p => (f :: p.1, p.2)) := by
  rw [parseRecord.eq_def]
  split
  next hn => rw [h] at hn; cases hn
  next f2 rest2 h2 =>
    rw [h] at h2
    injection h2 with h3
    injection h3 with hf hrest
    subst hf
    subst hrest
    simp

theorem parseRecord_nl (s f r : List Char) (h : parseField s = some (f, '\n' :: r)) :
    parseRecord s = some ([f], r) := by
  rw [parseRecord.eq_def]
  split
  next hn => rw [h] at hn; cases hn
  next f2 rest2 h2 =>
    rw [h] at h2
    injection h2 with h3
    injection h3 with hf hrest
    subst hf
    subst hrest
    simp

theorem parseRecord_length :
    ∀ s recs rest, parseRecord s = some (recs, rest) →
      rest.length < s.length ∨ rest = [] := by
  intro s
  induction s using parseRecord.induct with
  | case1 x hn =>
    intro recs rest hr
    rw [parseRecord.eq_def] at hr
    split at hr
    · cases hr
    next f2 rest2 h2 =>
      rw [hn] at h2; cases h2
  | case2 x f hf hf2 =>
    intro recs rest hr
    rw [parseRecord.eq_def] at hr
    split at hr
    next hn => rw [hf] at hn; cases hn
    next f2 rest2 h2 =>
      rw [hf] at h2
      injection h2 with h3
      injection h3 with h4 h5
      subst h4; subst h5
      simp at hr
      right
      rw [← hr.2]
  | case3 x f r hf hf2 ih =>
    intro recs rest hr
    rw [parseRecord_semi x f r hf] at hr
    cases hq : parseRecord r with
    | none => rw [hq] at hr; cases hr
    | some p =>
      rw [hq] at hr
      injection hr with h2
      injection h2 with h3 h4
      subst h4
      have hlen := parseField_length x f (';' :: r) hf
      rcases ih p.1 p.2 (by rw [hq]) with h5 | h5
      · left; simp at hlen ⊢; omega
      · right; exact h5
  | case4 x f r hf hne hf2 =>
    intro recs rest hr
    rw [parseRecord_nl x f r hf] at hr
    injection hr with h2
    injection h2 with h3 h4
    subst h4
    have hlen := parseField_length x f ('\n' :: r) hf
    left
    simp at hlen ⊢
    omega
  | case5 x f c r hf hc hn hf2 =>
    intro recs rest hr
    rw [parseRecord.eq_def] at hr
    split at hr
    next hn2 => rw [hf] at hn2; cases hn2
    next f2 rest2 h2 =>
      rw [hf] at h2
      injection h2 with h3
      injection h3 with h4 h5
      subst h4; subst h5
      simp [hc, hn] at hr

def parseAll (s : List Char) : Option (List (List (List Char))) :=
  match s with
  | [] => some []
  | c :: r =>
    if c = '\n' then parseAll r
    else
      match hr : parseRecord (c :: r) with
      | none => none
      | some (recs, rest) => (parseAll rest).map (fun rs => recs :: rs)
termination_by s.length
decreasing_by
  · simp
  · rcases parseRecord_length _ recs rest hr with h1 | h1
    · simpa using h1
    · subst h1; simp

theorem takeWhile_append_all (p : Char → Bool) (f rest : List Char)
    (h : ∀ c ∈ f, p c) :
    (f ++ rest).takeWhile p = f ++ rest.takeWhile p := by
  induction f with
  | nil => simp
  | cons a f ih =>
    have ha : p a := h a (by simp)
    simp [List.takeWhile, ha]
    exact ih (fun c hc => h c (by simp [hc]))

theorem dropWhile_append_all (p : Char → Bool) (f rest : List Char)
    (h : ∀ c ∈ f, p c) :
    (f ++ rest).dropWhile p = rest.dropWhile p := by
  induction f with
  | nil => simp
  | cons a f ih =>
    have ha : p a := h a (by simp)
    simp [List.dropWhile, ha]
    exact ih (fun c hc => h c (by simp [hc]))

theorem parseQuoted_esc (f : List Char) :
    ∀ rest, rest.head? ≠ some quoteChar →
      parseQuoted (dupQ f ++ quoteChar :: rest) = some (f, rest) := by
  induction f with
  | nil =>
    intro rest hrest
    match rest with
    | [] => simp [dupQ, parseQuoted]
    | c :: r =>
      have hc : ¬c = quoteChar := by
        intro hc2; exact hrest (by simp [hc2])
      simp [dupQ, parseQuoted, hc]
  | cons a f ih =>
    intro rest hrest
    by_cases ha : a = quoteChar
    · subst ha
      have hd : dupQ (quoteChar :: f) ++ quoteChar :: rest =
          quoteChar :: quoteChar :: (dupQ f ++ quoteChar :: rest) := by
        simp [dupQ]
      rw [hd]
      have he : parseQuoted (quoteChar :: quoteChar :: (dupQ f ++ quoteChar :: rest)) =
          (parseQuoted (dupQ f ++ quoteChar :: rest)).map
            (fun p => (quoteChar :: p.1, p.2)) := by
        rw [parseQuoted.eq_def]
        simp
      rw [he, ih rest hrest]
      simp
    · have hd : dupQ (a :: f) ++ quoteChar :: rest =
          a :: (dupQ f ++ quoteChar :: rest) := by
        simp [dupQ, ha]
      rw [hd]
      have he : parseQuoted (a :: (dupQ f ++ quoteChar :: rest)) =
          (parseQuoted (dupQ f ++ quoteChar :: rest)).map
            (fun p => (a :: p.1, p.2)) := by
        rw [parseQuoted.eq_def]
        simp [ha]
      rw [he, ih rest hrest]
      simp

/-- What may legally follow a serialized field: end of input, the field
delimiter, or the record terminator. -/
def restDelim (rest : List Char) : Prop :=
  rest = [] ∨ rest.head? = some ';' ∨ rest.head? = some '\n'

theorem takeWhile_delim (rest : List Char) (hrest : restDelim rest) :
    rest.takeWhile notDelim = [] ∧ rest.dropWhile notDelim = rest := by
  rcases hrest with h | h | h
  · subst h; simp
  · match rest with
    | [] => simp at h
    | c :: r =>
      simp at h
      subst h
      simp [List.takeWhile, List.dropWhile, notDelim]
  · match rest with
    | [] => simp at h
    | c :: r =>
      simp at h
      subst h
      simp [List.takeWhile, List.dropWhile, notDelim]

theorem restDelim_head_ne_quote (rest : List Char) (hrest : restDelim rest) :
    rest.head? ≠ some quoteChar := by
  rcases hrest with h | h | h <;> rw [h] <;> simp <;> decide

theorem isSpecial_ne (c x : Char) (h : isSpecial c = false)
    (hx : isSpecial x = true) : c ≠ x := by
  intro he
  subst he
  rw [h] at hx
  cases hx

theorem notSpecial_facts (c : Char) (h : isSpecial c = false) :
    notDelim c = true ∧ c ≠ quoteChar ∧ c ≠ '\n' := by
  have h1 : c ≠ ';' := isSpecial_ne c ';' h (by decide)
  have h2 : c ≠ quoteChar := isSpecial_ne c quoteChar h (by decide)
  have h3 : c ≠ '\n' := isSpecial_ne c '\n' h (by decide)
  refine ⟨?_, h2, h3⟩
  simp [notDelim, h1, h3]

theorem needsQuote_false_all (f : List Char) (h : needsQuote f = false) :
    ∀ c ∈ f, isSpecial c = false := by
  intro c hc
  have h2 : f.any isSpecial = false := h
  have := List.any_eq_false.mp h2 c hc
  simpa using this

theorem parseField_esc (f rest : List Char) (hrest : restDelim rest) :
    parseField (escField f ++ rest) = some (f, rest) := by
  by_cases hq : needsQuote f
  · have hesc : escField f ++ rest = quoteChar :: (dupQ f ++ quoteChar :: rest) := by
      simp [escField, hq]
    rw [hesc]
    have he : parseField (quoteChar :: (dupQ f ++ quoteChar :: rest)) =
        parseQuoted (dupQ f ++ quoteChar :: rest) := by
      simp [parseField]
    rw [he]
    exact parseQuoted_esc f rest (restDelim_head_ne_quote rest hrest)
  · have hq2 : needsQuote f = false := by
      exact Bool.not_eq_true (needsQuote f) ▸ eq_false_of_ne_true hq
    have hesc : escField f = f := by simp [escField, hq2]
    rw [hesc]
    have hall : ∀ c ∈ f, isSpecial c = false := needsQuote_false_all f hq2
    match f with
    | [] =>
      simp only [List.nil_append]
      rcases hrest with h | h | h
      · subst h; simp [parseField]
      · match rest with
        | [] => simp at h
        | c :: r =>
          simp at h
          subst h
          have : ¬(';' : Char) = quoteChar := by decide
          simp [parseField, this, List.takeWhile, List.dropWhile, notDelim]
      · match rest with
        | [] => simp at h
        | c :: r =>
          simp at h
          subst h
          have : ¬('\n' : Char) = quoteChar := by decide
          simp [parseField, this, List.takeWhile, List.dropWhile, notDelim]
    | a :: f2 =>
      have ha := notSpecial_facts a (hall a (by simp))
      have haq : ¬a = quoteChar := ha.2.1
      have hnd : ∀ c ∈ a :: f2, notDelim c := by
        intro c hc
        exact (notSpecial_facts c (hall c hc)).1
      have he : parseField ((a :: f2) ++ rest) =
          some (((a :: f2) ++ rest).takeWhile notDelim,
            ((a :: f2) ++ rest).dropWhile notDelim) := by
        simp only [List.cons_append, parseField]
        simp [haq]
      rw [he, takeWhile_append_all notDelim (a :: f2) rest hnd,
        dropWhile_append_all notDelim (a :: f2) rest hnd,
        (takeWhile_delim rest hrest).1, (takeWhile_delim rest hrest).2]
      simp

theorem parseRecord_row (a b rest : List Char) :
    parseRecord (escField a ++ ';' :: (escField b ++ '\n' :: rest)) =
      some ([a, b], rest) := by
  have h1 : parseField (escField a ++ ';' :: (escField b ++ '\n' :: rest)) =
      some (a, ';' :: (escField b ++ '\n' :: rest)) := by
    exact parseField_esc a _ (Or.inr (Or.inl rfl))
  have h2 : parseField (escField b ++ '\n' :: rest) =
      some (b, '\n' :: rest) := by
    exact parseField_esc b _ (Or.inr (Or.inr rfl))
  rw [parseRecord_semi _ a _ h1, parseRecord_nl _ b _ h2]
  simp

theorem parseAll_nil : parseAll [] = some [] := by
  rw [parseAll.eq_def]

theorem parseAll_rec (s : List Char) (recs : List (List Char))
    (rest : List Char) (hs : s ≠ []) (hne : s.head? ≠ some '\n')
    (h : parseRecord s = some (recs, rest)) :
    parseAll s = (parseAll rest).map (fun rs => recs :: rs) := by
  match s with
  | [] => exact absurd rfl hs
  | c :: r =>
    have hcn : ¬c = '\n' := by
      intro h2; exact hne (by simp [h2])
    rw [parseAll.eq_def]
    simp only [hcn, if_false]
    split
    next hn => rw [h] at hn; cases hn
    next recs2 rest2 h2 =>
      rw [h] at h2
      injection h2 with h3
      injection h3 with h4 h5
      subst h4
      subst h5
      rfl

theorem escField_semi_head_ne_nl (f : List Char) (t : List Char) :
    (escField f ++ ';' :: t).head? ≠ some '\n' := by
  by_cases hq : needsQuote f
  · have hesc : escField f ++ ';' :: t =
        quoteChar :: (dupQ f ++ [quoteChar] ++ ';' :: t) := by
      simp [escField, hq]
    rw [hesc]
    simp
    decide
  · have hq2 : needsQuote f = false := by
      exact Bool.not_eq_true (needsQuote f) ▸ eq_false_of_ne_true hq
    have hesc : escField f = f := by simp [escField, hq2]
    rw [hesc]
    match f with
    | [] =>
      simp
    | a :: f2 =>
      have ha := notSpecial_facts a (needsQuote_false_all _ hq2 a (by simp))
      simp
      intro h2
      exact ha.2.2 h2

/-- Round trip of the record store through the semicolon-delimited codec:
parsing the serialized store recovers exactly the store's rows. -/
theorem parseAll_serialize (m : Movies) :
    parseAll (serializeStore m) =
      some (m.map (fun r => [r.1.data, r.2.data])) := by
  induction m with
  | nil => simpa [serializeStore] using parseAll_nil
  | cons r m ih =>
    have hs : serializeStore (r :: m) =
        escField r.1.data ++ ';' :: (escField r.2.data ++ '\n' :: serializeStore m) := by
      simp [serializeStore]
    rw [hs]
    have hrow := parseRecord_row r.1.data r.2.data (serializeStore m)
    have hne := escField_semi_head_ne_nl r.1.data
      (escField r.2.data ++ '\n' :: serializeStore m)
    have hs2 : escField r.1.data ++ ';' :: (escField r.2.data ++ '\n' :: serializeStore m) ≠ [] := by
      intro h2
      have := congrArg List.length h2
      simp at this
    rw [parseAll_rec _ [r.1.data, r.2.data] (serializeStore m) hs2 hne hrow, ih]
    simp

/-- Whether a key is present in the store. -/
def hasKey (m : Movies) (k : String) : Bool :=
  m.any (fun p => p.1 == k)

theorem find_map_self (k v : String) :
    ∀ m : Movies, m.any (fun p => p.1 == k) = true →
      (m.map (fun p => if p.1 == k then (k, v) else p)).find?
        (fun p => p.1 == k) = some (k, v) := by
  intro m
  induction m with
  | nil => intro h; simp at h
  | cons p m ih =>
    intro h
    by_cases hp : p.1 == k
    · simp [List.find?, hp]
    · have hpf : (p.1 == k) = false := by simpa using hp
      have h2 : m.any (fun q => q.1 == k) = true := by
        simpa [List.any_cons, hpf] using h
      simpa [List.find?, hpf] using ih h2

theorem find_map_other (k v k2 : String) (hkk : (k == k2) = false) :
    ∀ m : Movies,
      (m.map (fun p => if p.1 == k then (k, v) else p)).find?
        (fun p => p.1 == k2) = m.find? (fun p => p.1 == k2) := by
  intro m
  induction m with
  | nil => simp
  | cons p m ih =>
    by_cases hp : p.1 == k
    · have hk : p.1 = k := by simpa using hp
      have hp2 : (p.1 == k2) = false := by rw [hk]; exact hkk
      simp only [List.map_cons, hp, if_true, List.find?, hkk, hp2]
      exact ih
    · have hpf : (p.1 == k) = false := by simpa using hp
      by_cases hp2 : p.1 == k2
      · simp [List.find?, hpf, hp2]
      · have hp2f : (p.1 == k2) = false := by simpa using hp2
        simpa [List.find?, hpf, hp2f] using ih

theorem mapGet_insert_self (m : Movies) (k v : String) :
    mapGet (mapInsert m k v) k = some v := by
  unfold mapInsert mapGet
  by_cases h : m.any (fun p => p.1 == k)
  · simp only [h, if_true]
    rw [find_map_self k v m h]
    rfl
  · have h2 : m.any (fun p => p.1 == k) = false := eq_false_of_ne_true h
    have hn : m.find? (fun p => p.1 == k) = none := by
      refine List.find?_eq_none.mpr ?_
      intro x hx
      exact List.any_eq_false.mp h2 x hx
    simp only [h2, Bool.false_eq_true, if_false]
    rw [List.find?_append, hn]
    simp [List.find?]

theorem mapGet_insert_other (m : Movies) (k v k2 : String) (hne : k2 ≠ k) :
    mapGet (mapInsert m k v) k2 = mapGet m k2 := by
  have hkk : (k == k2) = false := by
    simp only [beq_eq_false_iff_ne, ne_eq]
    intro h
    exact hne h.symm
  unfold mapInsert mapGet
  by_cases h : m.any (fun p => p.1 == k)
  · simp only [h, if_true]
    rw [find_map_other k v k2 hkk m]
  · have h2 : m.any (fun p => p.1 == k) = false := eq_false_of_ne_true h
    simp only [h2, Bool.false_eq_true, if_false]
    rw [List.find?_append]
    have : List.find? (fun p => p.1 == k2) ([(k, v)]) = none := by
      simp [List.find?, hkk]
    rw [this]
    simp

theorem hasKey_insert_self (m : Movies) (k v : String) :
    hasKey (mapInsert m k v) k = true := by
  unfold hasKey mapInsert
  by_cases h : m.any (fun p => p.1 == k)
  · simp only [h, if_true]
    rcases List.any_eq_true.mp h with ⟨p, hp, hpk⟩
    refine List.any_eq_true.mpr ⟨(k, v), ?_, by simp⟩
    refine List.mem_map.mpr ⟨p, hp, ?_⟩
    simp [hpk]
  · have h2 : m.any (fun p => p.1 == k) = false := eq_false_of_ne_true h
    simp only [h2, Bool.false_eq_true, if_false]
    refine List.any_eq_true.mpr ⟨(k, v), by simp, by simp⟩

theorem hasKey_insert_mono (m : Movies) (k v k2 : String)
    (h : hasKey m k2 = true) : hasKey (mapInsert m k v) k2 = true := by
  unfold hasKey at h ⊢
  unfold mapInsert
  rcases List.any_eq_true.mp h with ⟨p, hp, hpk⟩
  by_cases hI : m.any (fun p => p.1 == k)
  · simp only [hI, if_true]
    by_cases hpk2 : p.1 == k
    · refine List.any_eq_true.mpr ⟨(k, v), ?_, ?_⟩
      · exact List.mem_map.mpr ⟨p, hp, by simp [hpk2]⟩
      · have h1 : p.1 = k := by simpa using hpk2
        have h2 : p.1 = k2 := by simpa using hpk
        simp [← h1, h2]
    · refine List.any_eq_true.mpr ⟨p, ?_, hpk⟩
      refine List.mem_map.mpr ⟨p, hp, ?_⟩
      have : (p.1 == k) = false := by simpa using hpk2
      simp [this]
  · have h2 : m.any (fun p => p.1 == k) = false := eq_false_of_ne_true hI
    simp only [h2, Bool.false_eq_true, if_false]
    exact List.any_eq_true.mpr ⟨p, by simp [hp], hpk⟩

theorem mapInsert_length (m : Movies) (k v : String) :
    (mapInsert m k v).length =
      (if hasKey m k then m.length else m.length + 1) := by
  unfold mapInsert hasKey
  by_cases h : m.any (fun p => p.1 == k)
  · simp [h]
  · have h2 : m.any (fun p => p.1 == k) = false := eq_false_of_ne_true h
    simp [h2]

/-- The last value associated with a key in a record sequence (the winner
under last-write-wins). -/
def lastVal (records : List (String × String)) (k : String) : Option String :=
  records.foldl (fun acc r => if r.1 == k then some r.2 else acc) none

theorem lastVal_foldl_init (k : String) :
    ∀ (records : List (String × String)) (a : Option String),
      records.foldl (fun acc r => if r.1 == k then some r.2 else acc) a =
        match lastVal records k with
        | some v => some v
        | none => a := by
  intro records
  induction records with
  | nil => intro a; simp [lastVal]
  | cons r rs ih =>
    intro a
    have h1 : lastVal (r :: rs) k =
        rs.foldl (fun acc q => if q.1 == k then some q.2 else acc)
          (if r.1 == k then some r.2 else none) := by
      simp [lastVal]
    rw [h1, ih ((if r.1 == k then some r.2 else none))]
    have h2 : (r :: rs).foldl (fun acc q => if q.1 == k then some q.2 else acc) a =
        rs.foldl (fun acc q => if q.1 == k then some q.2 else acc)
          (if r.1 == k then some r.2 else a) := by
      simp
    rw [h2, ih ((if r.1 == k then some r.2 else a))]
    cases lastVal rs k with
    | some v => simp
    | none =>
      by_cases hr : r.1 == k <;> simp [hr]

theorem lastVal_cons (r : String × String) (rs : List (String × String))
    (k : String) :
    lastVal (r :: rs) k =
      match lastVal rs k with
      | some v => some v
      | none => if r.1 == k then some r.2 else none := by
  have h1 : lastVal (r :: rs) k =
      rs.foldl (fun acc q => if q.1 == k then some q.2 else acc)
        (if r.1 == k then some r.2 else none) := by
    simp [lastVal]
  rw [h1, lastVal_foldl_init k rs]

theorem mergeGet (k : String) :
    ∀ (records : List (String × String)) (m : Movies),
      mapGet (mergeMovies m records) k =
        match lastVal records k with
        | some v => some v
        | none => mapGet m k := by
  intro records
  induction records with
  | nil => intro m; simp [mergeMovies, lastVal]
  | cons r rs ih =>
    intro m
    have h1 : mergeMovies m (r :: rs) = mergeMovies (mapInsert m r.1 r.2) rs := by
      simp [mergeMovies]
    rw [h1, ih (mapInsert m r.1 r.2), lastVal_cons r rs k]
    cases hl : lastVal rs k with
    | some v => simp
    | none =>
      by_cases hr : r.1 == k
      · have hk : r.1 = k := by simpa using hr
        subst hk
        simp [hr, mapGet_insert_self]
      · have hne : k ≠ r.1 := by
          intro h2
          exact hr (by simp [h2])
        have hrf : (r.1 == k) = false := by simpa using hr
        simp [hrf, mapGet_insert_other m r.1 r.2 k hne]

theorem merge_hasKey_mono (k : String) :
    ∀ (records : List (String × String)) (m : Movies),
      hasKey m k = true → hasKey (mergeMovies m records) k = true := by
  intro records
  induction records with
  | nil => intro m h; simpa [mergeMovies] using h
  | cons r rs ih =>
    intro m h
    have h1 : mergeMovies m (r :: rs) = mergeMovies (mapInsert m r.1 r.2) rs := by
      simp [mergeMovies]
    rw [h1]
    exact ih (mapInsert m r.1 r.2) (hasKey_insert_mono m r.1 r.2 k h)

theorem merge_hasKey_of_mem :
    ∀ (records : List (String × String)) (m : Movies) (r : String × String),
      r ∈ records → hasKey (mergeMovies m records) r.1 = true := by
  intro records
  induction records with
  | nil => intro m r h; cases h
  | cons q rs ih =>
    intro m r h
    have h1 : mergeMovies m (q :: rs) = mergeMovies (mapInsert m q.1 q.2) rs := by
      simp [mergeMovies]
    rw [h1]
    rcases List.mem_cons.mp h with h2 | h2
    · subst h2
      exact merge_hasKey_mono r.1 rs (mapInsert m r.1 r.2)
        (hasKey_insert_self m r.1 r.2)
    · exact ih (mapInsert m q.1 q.2) r h2

theorem merge_length_present :
    ∀ (records : List (String × String)) (m : Movies),
      (∀ r ∈ records, hasKey m r.1 = true) →
      (mergeMovies m records).length = m.length := by
  intro records
  induction records with
  | nil => intro m _; simp [mergeMovies]
  | cons q rs ih =>
    intro m h
    have h1 : mergeMovies m (q :: rs) = mergeMovies (mapInsert m q.1 q.2) rs := by
      simp [mergeMovies]
    rw [h1]
    have h2 : (mapInsert m q.1 q.2).length = m.length := by
      rw [mapInsert_length, h q (by simp), if_pos rfl]
    rw [← h2]
    refine ih (mapInsert m q.1 q.2) ?_
    intro r hr
    exact hasKey_insert_mono m q.1 q.2 r.1 (h r (by simp [hr]))

theorem splitAux_single_length (c : Char) :
    ∀ (s acc : List Char), (splitAux [c] s 0 acc).length = s.count c + 1 := by
  intro s
  induction s with
  | nil => intro acc; simp [splitAux]
  | cons a s ih =>
    intro acc
    by_cases hc : c = a
    · have hpre : ([c]).isPrefixOf (a :: s) = true := by
        simp [List.isPrefixOf, hc]
      have he : splitAux [c] (a :: s) 0 acc = acc.reverse :: splitAux [c] s 0 [] := by
        rw [splitAux]
        simp [hpre]
      rw [he]
      simp only [List.length_cons]
      rw [ih]
      have : (a :: s).count c = s.count c + 1 := by
        simp [List.count_cons, hc]
      omega
    · have hpre : ([c]).isPrefixOf (a :: s) = false := by
        simp only [List.isPrefixOf, Bool.and_eq_false_iff]
        left
        simp only [beq_eq_false_iff_ne, ne_eq]
        intro h2
        exact hc h2
      have he : splitAux [c] (a :: s) 0 acc = splitAux [c] s 0 (a :: acc) := by
        rw [splitAux]
        simp [hpre]
      rw [he, ih]
      have : (a :: s).count c = s.count c := by
        simp only [List.count_cons]
        have : (a == c) = false := by
          simp only [beq_eq_false_iff_ne, ne_eq]
          intro h2
          exact hc h2.symm
        simp [this]
      omega

theorem splitAux_single_append (c : Char) :
    ∀ (a : List Char), (∀ x ∈ a, x ≠ c) → ∀ (r acc : List Char),
      splitAux [c] (a ++ c :: r) 0 acc =
        (acc.reverse ++ a) :: splitAux [c] r 0 [] := by
  intro a
  induction a with
  | nil =>
    intro _ r acc
    have hpre : ([c]).isPrefixOf (c :: r) = true := by
      simp [List.isPrefixOf]
    rw [List.nil_append, splitAux]
    simp [hpre]
  | cons x a ih =>
    intro h r acc
    have hx : x ≠ c := h x (by simp)
    have hpre : ([c]).isPrefixOf (x :: (a ++ c :: r)) = false := by
      simp only [List.isPrefixOf, Bool.and_eq_false_iff]
      left
      simp only [beq_eq_false_iff_ne, ne_eq]
      intro h2
      exact hx h2.symm
    have he : splitAux [c] (x :: (a ++ c :: r)) 0 acc =
        splitAux [c] (a ++ c :: r) 0 (x :: acc) := by
      rw [splitAux]
      simp [hpre]
    rw [List.cons_append, he, ih (fun y hy => h y (by simp [hy])) r (x :: acc)]
    simp

theorem goSplit_single_length (c : Char) (s : List Char) :
    (goSplit [c] s).length = s.count c + 1 :=
  splitAux_single_length c s []

theorem goSplit_slash_shape (s1 s2 rest : List Char)
    (h1 : ∀ x ∈ s1, x ≠ '/') (h2 : ∀ x ∈ s2, x ≠ '/') :
    goSplit (['/']) ('/' :: (s1 ++ '/' :: (s2 ++ '/' :: rest))) =
      [] :: s1 :: s2 :: goSplit (['/']) rest := by
  unfold goSplit
  have e0 : ('/' : Char) :: (s1 ++ '/' :: (s2 ++ '/' :: rest)) =
      [] ++ '/' :: (s1 ++ '/' :: (s2 ++ '/' :: rest)) := by simp
  rw [e0, splitAux_single_append '/' [] (by simp) _ []]
  rw [splitAux_single_append '/' s1 h1 _ []]
  rw [splitAux_single_append '/' s2 h2 rest []]
  simp

theorem wrap64_eq_self (x : Int) (h1 : -(2 ^ 63) ≤ x) (h2 : x < 2 ^ 63) :
    wrap64 x = x := by
  unfold wrap64
  omega

/-- A replay row is well formed when it has at least two fields and its
first field parses as an integer. -/
def goodRow (row : List String) : Prop :=
  ∃ i n r, row = i :: n :: r ∧ (atoiChars i.data).isSome

theorem importLoop_ok (watch : Nat → Bool) :
    ∀ (rows : List (List String)) (k : Nat), (∀ row ∈ rows, goodRow row) →
      importLoop watch rows k = some (reportsOf watch k rows, false) := by
  intro rows
  induction rows with
  | nil => intro k _; simp [importLoop, reportsOf]
  | cons row rest ih =>
    intro k h
    rcases h row (by simp) with ⟨i, n, r, hrow, hsome⟩
    rcases Option.isSome_iff_exists.mp hsome with ⟨x, hx⟩
    subst hrow
    rw [importLoop, hx, ih (k + 1) (fun q hq => h q (by simp [hq]))]
    simp [reportsOf]

theorem importLoop_abort (watch : Nat → Bool) :
    ∀ (front : List (List String)) (badId nm : String) (extra : List String)
      (back : List (List String)) (k : Nat),
      (∀ row ∈ front, goodRow row) → atoiChars badId.data = none →
      importLoop watch (front ++ (badId :: nm :: extra) :: back) k =
        some (reportsOf watch k front, true) := by
  intro front
  induction front with
  | nil =>
    intro badId nm extra back k _ hbad
    rw [List.nil_append, importLoop, hbad]
    simp [reportsOf]
  | cons row rest ih =>
    intro badId nm extra back k h hbad
    rcases h row (by simp) with ⟨i, n, r, hrow, hsome⟩
    rcases Option.isSome_iff_exists.mp hsome with ⟨x, hx⟩
    subst hrow
    rw [List.cons_append, importLoop, hx,
      ih badId nm extra back (k + 1) (fun q hq => h q (by simp [hq])) hbad]
    simp [reportsOf]

/-!
## The claims

Each claim of the specification is settled below: one theorem per claim,
with a closed witness instance when the theorem carries hypotheses, and a
closed counterexample where the claim as stated fails on the code.
-/

/-- Claim C1, counterexample: a transport (fetch) error does NOT cause the
page-fetch loops to sleep and retry — both `parseFirstPage` and `parsePage`
immediately RETURN the zero result to their caller (`return 0, 0` at lines
200–201 and `return 0` at lines 263–264 of `main.go`), with no sleep, so a
transient failure IS returned as the loop's result. -/
theorem retryLoop_error_is_returned :
    parseFirstPageGo [Attempt.fetchError] = LoopResult.ok (0, 0) 0 ∧
      parsePageGo [] [Attempt.fetchError] = LoopResult.ok (0, []) 0 ∧
      parseFirstPageGo [Attempt.parseError] = LoopResult.ok (0, 0) 0 ∧
      parsePageGo [] [Attempt.parseError] = LoopResult.ok (0, []) 0 := by
  refine ⟨by decide, by decide, by decide, by decide⟩

/-- Claim C1 as amended: only a successfully fetched and parsed page whose
extraction yields zero is retried (with no upper bound); a transport or
parse error returns the zero result to the caller at once.  `parseFirstPage`
retries with no delay at all; `parsePage` sleeps a fixed delay after every
parsed attempt, the successful final one included. -/
theorem retryLoop_zero_behavior (rest : List Attempt) (m : Movies)
    (d : HtmlNode) :
    (parseFirstPageGo (Attempt.fetchError :: rest) = LoopResult.ok (0, 0) 0
      ∧ parseFirstPageGo (Attempt.parseError :: rest) = LoopResult.ok (0, 0) 0
      ∧ parsePageGo m (Attempt.fetchError :: rest) = LoopResult.ok (0, m) 0
      ∧ parsePageGo m (Attempt.parseError :: rest) = LoopResult.ok (0, m) 0)
    ∧ (∀ p2, findPagingHeaderGo d = some (0, p2) →
        parseFirstPageGo (Attempt.doc d :: rest) = parseFirstPageGo rest)
    ∧ (∀ m2, findMoviesGo m d = some (0, m2) →
        parsePageGo m (Attempt.doc d :: rest) = addSleep (parsePageGo m2 rest)) := by
  refine ⟨⟨by simp [parseFirstPageGo], by simp [parseFirstPageGo],
    by simp [parsePageGo], by simp [parsePageGo]⟩, ?_, ?_⟩
  · intro p2 h
    simp [parseFirstPageGo, h]
  · intro m2 h
    simp [parsePageGo, h]

/-- Claim C1, witness instance of the amended theorem: on a document with a
zero extraction the loops do continue (retry), `parsePage` adding one
delay. -/
theorem retryLoop_zero_behavior_inst :
    parseFirstPageGo [Attempt.doc emptyNode] = parseFirstPageGo [] ∧
      parsePageGo [] [Attempt.doc emptyNode] = addSleep (parsePageGo [] []) := by
  have h := retryLoop_zero_behavior [] [] emptyNode
  exact ⟨h.2.1 0 (by decide), h.2.2 [] (by decide)⟩

/-- Claim C2, counterexample: on the spec's example href the extracted
identifier is `"type"`, the element at index 2 of the Go split (whose first
element is the empty segment before the leading slash), not `"535341"`. -/
theorem extractId_spec_example :
    extractId ("/film/type/1/id/535341/somepath/") = some ("type") ∧
      ("type" : String) ≠ ("535341" : String) := by
  refine ⟨by decide, by decide⟩

/-- Claim C2 as amended: `extractId` returns index 2 of the slash split;
for an href that starts with a slash this is the SECOND slash-delimited
path segment (the split's element 0 is the empty prefix before the leading
slash).  On the real listing hrefs `/film/<ID>/...` this is `<ID>`. -/
theorem extractId_second_segment (s1 s2 rest : List Char)
    (h1 : ∀ x ∈ s1, x ≠ '/') (h2 : ∀ x ∈ s2, x ≠ '/') :
    extractId (String.mk ('/' :: (s1 ++ '/' :: (s2 ++ '/' :: rest)))) =
      some (String.mk s2) := by
  unfold extractId
  have hd : (String.mk ('/' :: (s1 ++ '/' :: (s2 ++ '/' :: rest)))).data =
      '/' :: (s1 ++ '/' :: (s2 ++ '/' :: rest)) := rfl
  rw [hd, goSplit_slash_shape s1 s2 rest h1 h2]

/-- Claim C2, witness instance of the amended theorem: a real kinopoisk
listing href. -/
theorem extractId_second_segment_inst :
    extractId ("/film/535341/") = some ("535341") := by
  have h := extractId_second_segment (("film").data) (("535341").data) []
    (by decide) (by decide)
  exact h

/-- Claim C3, counterexample: the marker text `"1—50"` makes the `" из "`
split yield a single segment (fewer than 2), yet the extraction does not
return a parse failure — it panics (`pagesParts[1]` index out of range at
line 234 of `main.go`), because the range part parsed as numeric first.
The extraction is therefore NOT total. -/
theorem inspectPaging_crash_example :
    inspectPagingText ("1—50") = none ∧
      goSplit izSep (("1—50").data) = [("1—50").data] := by
  refine ⟨by decide, by decide⟩

/-- Claim C3 as amended: the extraction is total and returns the
`ParseFailure` zero result `(0, 0)` on non-numeric segments ONLY when both
splits yield at least two segments; when the `" из "` split or the `"—"`
split is too short, the code can instead panic, as the counterexample
shows. -/
theorem inspectPaging_total_on_wellsplit (s : String) (r t : List Char)
    (pRest : List (List Char)) (f l : List Char) (rRest : List (List Char))
    (hp : goSplit izSep s.data = r :: t :: pRest)
    (hr : goSplit dashSep r = f :: l :: rRest) :
    inspectPagingText s ≠ none ∧
      ((atoiChars f).isNone ∨ (atoiChars l).isNone ∨ (atoiChars t).isNone →
        inspectPagingText s = some (0, 0)) := by
  unfold inspectPagingText
  simp only [hp, hr]
  cases hf : atoiChars f with
  | none => exact ⟨by simp, fun _ => by simp⟩
  | some fv =>
    cases hl : atoiChars l with
    | none => exact ⟨by simp, fun _ => by simp⟩
    | some lv =>
      cases ht : atoiChars t with
      | none => exact ⟨by simp, fun _ => by simp⟩
      | some tv =>
        refine ⟨by simp, fun hcon => ?_⟩
        rcases hcon with h | h | h <;> simp at h

/-- Claim C3, witness instance of the amended theorem: both splits yield
two segments and the first segment is non-numeric, so the extraction
returns the `(0, 0)` parse failure instead of crashing. -/
theorem inspectPaging_total_inst :
    inspectPagingText ("a—b из c") = some (0, 0) := by
  have h := inspectPaging_total_on_wellsplit ("a—b из c")
    (("a—b").data) (("c").data) [] (("a").data) (("b").data) []
    (by decide) (by decide)
  exact h.2 (Or.inl (by decide))

/-- Claim C4, counterexample: with a fetchable extractor yielding zero on
the first two attempts and a non-zero value on the third, `parsePage`
performs THREE fixed delays — one after every parsed attempt, including the
successful third one — and `parseFirstPage` performs NONE (its loop body
contains no sleep); neither performs exactly two. -/
theorem retryLoop_delay_count_example :
    parsePageGo [] [Attempt.doc emptyNode, Attempt.doc emptyNode,
        Attempt.doc listPageNode] =
      LoopResult.ok (1, [("535341", "Matrix")]) 3 ∧
    parseFirstPageGo [Attempt.doc emptyNode, Attempt.doc emptyNode,
        Attempt.doc markerNode] = LoopResult.ok (237, 50) 0 ∧
    (3 : Nat) ≠ 2 ∧ (0 : Nat) ≠ 2 := by
  refine ⟨by decide, by decide, by decide, by decide⟩

/-- Claim C4 as amended: a fetchable whose extractor yields zero twice and
then a non-zero value makes the loop return that non-zero value, but the
delay count is three for `parsePage` (one after EVERY parsed attempt, the
successful one included) and zero for `parseFirstPage` (no sleep in its
body). -/
theorem retryLoop_two_zero_then_success
    (d1 d2 d3 e1 e2 e3 : HtmlNode) (m m1 m2 m3 : Movies) (k : Nat)
    (q1 q2 tv pv : Int)
    (h1 : findMoviesGo m d1 = some (0, m1))
    (h2 : findMoviesGo m1 d2 = some (0, m2))
    (h3 : findMoviesGo m2 d3 = some (k, m3)) (hk : k ≠ 0)
    (g1 : findPagingHeaderGo e1 = some (0, q1))
    (g2 : findPagingHeaderGo e2 = some (0, q2))
    (g3 : findPagingHeaderGo e3 = some (tv, pv)) (htv : tv ≠ 0) :
    parsePageGo m [Attempt.doc d1, Attempt.doc d2, Attempt.doc d3] =
      LoopResult.ok (k, m3) 3 ∧
    parseFirstPageGo [Attempt.doc e1, Attempt.doc e2, Attempt.doc e3] =
      LoopResult.ok (tv, pv) 0 := by
  constructor
  · simp [parsePageGo, h1, h2, h3, hk, addSleep]
  · simp [parseFirstPageGo, g1, g2, g3, htv]

/-- Claim C4, witness instance of the amended theorem. -/
theorem retryLoop_two_zero_then_success_inst :
    parsePageGo [] [Attempt.doc emptyNode, Attempt.doc emptyNode,
        Attempt.doc listPageNode] =
      LoopResult.ok (1, [("535341", "Matrix")]) 3 ∧
    parseFirstPageGo [Attempt.doc emptyNode, Attempt.doc emptyNode,
        Attempt.doc markerNode] = LoopResult.ok (237, 50) 0 := by
  exact retryLoop_two_zero_then_success emptyNode emptyNode listPageNode
    emptyNode emptyNode markerNode [] [] [] ([("535341", "Matrix")]) 1
    0 0 237 50 (by decide) (by decide) (by decide) (by decide)
    (by decide) (by decide) (by decide) (by decide)

/-- Claim C5, counterexample: a marker whose numeric segments make
`last - first + 1` overflow the 64-bit `int` — Go's wrap-around arithmetic
yields page size `-1` where the claim's exact `last - first + 1` is
`2 ^ 64 - 1`. -/
theorem inspectPaging_overflow_example :
    inspectPagingText ("-9223372036854775807—9223372036854775807 из 5") =
      some (5, -1) ∧
    (-1 : Int) ≠ 9223372036854775807 - (-9223372036854775807) + 1 := by
  refine ⟨by decide, by decide⟩

/-- Claim C5 as amended: on a marker of the form
`"<first>—<last> из <total>"` with numeric segments the inspection returns
`totalItems` exactly and `pageSize = last - first + 1` REDUCED INTO the
64-bit integer range; the reduction is the identity — so the claim's exact
equation holds — whenever `last - first + 1` fits in a 64-bit `int`, in
particular on all ordinary markers such as `"1—50 из 237"`. -/
theorem inspectPaging_valid_marker (s : String) (r t : List Char)
    (pRest : List (List Char)) (f l : List Char) (rRest : List (List Char))
    (fv lv tv : Int)
    (hp : goSplit izSep s.data = r :: t :: pRest)
    (hr : goSplit dashSep r = f :: l :: rRest)
    (hf : atoiChars f = some fv) (hl : atoiChars l = some lv)
    (ht : atoiChars t = some tv) :
    inspectPagingText s = some (tv, wrap64 (lv - fv + 1)) ∧
      (-(2 ^ 63) ≤ lv - fv + 1 → lv - fv + 1 < 2 ^ 63 →
        inspectPagingText s = some (tv, lv - fv + 1)) := by
  unfold inspectPagingText
  simp only [hp, hr]
  refine ⟨by simp [hf, hl, ht], fun hb1 hb2 => ?_⟩
  simp [hf, hl, ht, wrap64_eq_self _ hb1 hb2]

/-- Claim C5, witness instance of the amended theorem: the spec's own
example marker. -/
theorem inspectPaging_valid_marker_inst :
    inspectPagingText ("1—50 из 237") = some (237, 50) := by
  have h := inspectPaging_valid_marker ("1—50 из 237")
    (("1—50").data) (("237").data) [] (("1").data) (("50").data) []
    1 50 237 (by decide) (by decide) (by decide) (by decide) (by decide)
  have h2 := h.2 (by norm_num) (by norm_num)
  simpa using h2

/-- Claim C6 (confirmed): for `totalItems ≥ 0` (within the 64-bit range the
metadata probe can produce) and `pageSize > 0`, the harvest computes
`pageCount = ceil(totalItems / pageSize)`. -/
theorem pageCount_is_ceil (t p : Int) (ht : 0 ≤ t) (ht2 : t < 2 ^ 63)
    (hp : 0 < p) :
    computePageCount t p = some (⌈(t : ℚ) / (p : ℚ)⌉) := by
  have hp0 : p ≠ 0 := ne_of_gt hp
  have hpc : (0 : ℚ) < (p : ℚ) := by exact_mod_cast hp
  unfold computePageCount
  rw [if_neg hp0]
  have hd : t.tdiv p = t / p := Int.tdiv_eq_ediv ht (le_of_lt hp)
  have hm : t.tmod p = t % p := Int.tmod_eq_emod ht (le_of_lt hp)
  have hq0 : 0 ≤ t / p := Int.ediv_nonneg ht (le_of_lt hp)
  have hqt : t / p ≤ t := Int.ediv_le_self p ht
  have hdm := Int.ediv_add_emod t p
  have hr0 : 0 ≤ t % p := Int.emod_nonneg t hp0
  have hrp : t % p < p := Int.emod_lt_of_pos t hp
  have hwq : wrap64 (t.tdiv p) = t / p := by
    rw [hd]
    exact wrap64_eq_self _ (by omega) (by omega)
  simp only [hwq, hm]
  by_cases hr : t % p = 0
  · rw [if_neg (by simpa using hr)]
    have htq : t = p * (t / p) := by omega
    have hc : ((t : ℚ)) / (p : ℚ) = ((t / p : ℤ) : ℚ) := by
      rw [htq]
      push_cast
      field_simp
    rw [hc, Int.ceil_intCast]
  · rw [if_pos (by simpa using hr)]
    have hq1 : t / p + 1 < 2 ^ 63 := by
      have ha : 1 ≤ t % p := by omega
      have hb : t / p ≤ p * (t / p) := by nlinarith
      omega
    rw [wrap64_eq_self _ (by omega) (by omega)]
    congr 1
    rw [eq_comm, Int.ceil_eq_iff]
    have ha : 1 ≤ t % p := by omega
    constructor
    · rw [lt_div_iff₀ hpc]
      have hZ1 : (t / p + 1 - 1) * p < t := by nlinarith [hdm, ha]
      exact_mod_cast hZ1
    · rw [div_le_iff₀ hpc]
      have hZ2 : t ≤ (t / p + 1) * p := by nlinarith [hdm, hrp]
      exact_mod_cast hZ2

/-- Claim C6, witness instance: `totalItems = 237`, `pageSize = 50` give
five pages. -/
theorem pageCount_is_ceil_inst :
    computePageCount 237 50 = some 5 := by
  have h := pageCount_is_ceil 237 50 (by norm_num) (by norm_num) (by norm_num)
  rw [h]
  congr 1
  rw [Int.ceil_eq_iff]
  constructor <;> push_cast <;> norm_num

/-- Claim C7 (confirmed): merging the same record sequence twice yields a
store of the same size with the same content as merging it once, and
inserting an id overwrites its name (last-write-wins). -/
theorem merge_idempotent_lastwins (m : Movies)
    (records : List (String × String)) :
    (mergeMovies (mergeMovies m records) records).length =
        (mergeMovies m records).length
    ∧ (∀ k, mapGet (mergeMovies (mergeMovies m records) records) k =
        mapGet (mergeMovies m records) k)
    ∧ (∀ k v, mapGet (mapInsert m k v) k = some v) := by
  refine ⟨?_, ?_, fun k v => mapGet_insert_self m k v⟩
  · exact merge_length_present records (mergeMovies m records)
      (fun r hr => merge_hasKey_of_mem records m r hr)
  · intro k
    rw [mergeGet k records (mergeMovies m records)]
    cases hl : lastVal records k with
    | none => rfl
    | some v =>
      rw [mergeGet k records m, hl]

/-- Claim C8 (confirmed, against the spec-modelled TabularCodec):
deserializing the serialized store yields exactly the store's `(id, name)`
rows, both as raw rows and as record pairs. -/
theorem codec_round_trip (m : Movies) :
    parseAll (serializeStore m) =
        some (m.map (fun r => [r.1.data, r.2.data]))
    ∧ (parseAll (serializeStore m)).map
        (fun rows => rows.map (fun row =>
          (String.mk (row.headD []), String.mk ((row.drop 1).headD [])))) =
        some m := by
  have h := parseAll_serialize m
  refine ⟨h, ?_⟩
  rw [h, Option.map_some']
  congr 1
  rw [List.map_map]
  have he : ((fun row : List (List Char) =>
      ((String.mk (row.headD [])), (String.mk ((row.drop 1).headD [])))) ∘
      (fun r : String × String => [r.1.data, r.2.data])) = id := by
    funext r
    rfl
  rw [he, List.map_id]

/-- Claim C9 (confirmed): replay aborts the whole run at the first record
whose id does not parse as an integer — records after it are never
processed, whatever they are — while a failed mutation call is merely
reported: every well-formed record before the bad one produces exactly one
report consuming exactly one mutation-call result (one call per record, no
retry), and a run of only well-formed records completes with one report per
record regardless of the mutation outcomes. -/
theorem replay_abort_vs_continue (watch : Nat → Bool)
    (front back : List (List String)) (badId nm : String)
    (extra : List String)
    (hfront : ∀ row ∈ front, goodRow row)
    (hbad : atoiChars badId.data = none) :
    importLoop watch (front ++ (badId :: nm :: extra) :: back) 0 =
      some (reportsOf watch 0 front, true) ∧
    importLoop watch front 0 = some (reportsOf watch 0 front, false) := by
  exact ⟨importLoop_abort watch front badId nm extra back 0 hfront hbad,
    importLoop_ok watch front 0 hfront⟩

/-- Claim C9, witness instance: the run `[10;A], [x;B], [20;C]` with a
mutation endpoint that always fails processes only `A` (reported failed)
and aborts at the non-numeric id `x`, never reaching `C`. -/
theorem replay_abort_vs_continue_inst :
    importLoop (fun _ => false)
        ([["10", "A"], ["x", "B"], ["20", "C"]]) 0 =
      some ([("A", false)], true) ∧
    importLoop (fun _ => false) ([["10", "A"]]) 0 =
      some ([("A", false)], false) := by
  have h := replay_abort_vs_continue (fun _ => false)
    ([["10", "A"]]) ([["20", "C"]]) ("x") ("B") []
    (by
      intro row hrow
      simp at hrow
      subst hrow
      exact ⟨"10", "A", [], rfl, by decide⟩)
    (by decide)
  have h1 := h.1
  have h2 := h.2
  constructor
  · rw [show (([["10", "A"], ["x", "B"], ["20", "C"]]) : List (List String)) =
      ([["10", "A"]]) ++ (("x") :: ("B") :: []) :: ([["20", "C"]]) from rfl]
    rw [h1]
    rfl
  · rw [h2]
    rfl

/-- Claim C10 (confirmed): `extractId` panics exactly on hrefs with fewer
than two `/` characters (fewer than three slash-delimited segments) and is
defined on all others. -/
theorem extractId_defined_iff (href : String) :
    extractId href = none ↔ href.data.count '/' < 2 := by
  have hlen := goSplit_single_length '/' href.data
  unfold extractId
  rcases hsp : goSplit (['/']) href.data with _ | ⟨a, _ | ⟨b, _ | ⟨x, tl⟩⟩⟩ <;>
    rw [hsp] at hlen <;> simp at hlen ⊢ <;> omega
